import Mathlib

/-!
Shallow embedding of `asyncstdlib` (files `asyncstdlib/functools.py` and
`asyncstdlib/heapq.py`) together with models of the parts of the library that
the specification describes but whose implementation module (`_lrucache`) is
not part of the source tree.  Python coroutines are modelled by explicit
state passing; cooperative concurrency is modelled by interleaving the atomic
synchronous blocks of each coroutine under an explicit schedule; exceptions
are modelled with `Except String`.
-/

namespace AsyncStdlib

/-! ### `functools.reduce`

Embeds `asyncstdlib/functools.py`, `reduce`.  The module-level sentinel
`__REDUCE_SENTINEL = Sentinel("<no default>")` marks an absent `initial`
argument; it is a dedicated object distinct from every value a caller can
pass, so `initial : Option α` with `Option.none` playing the sentinel role is
a faithful encoding: `some v` for every caller-supplied `v`, `none` exactly
when the argument was omitted. -/

/-- The `async for head in item_iter: value = await function(value, head)`
loop of `reduce`. -/
def reduceLoop (f : α → α → α) : α → List α → α
  | value, [] => value
  | value, head :: tail => reduceLoop f (f value head) tail

/-- Embedding of `reduce(function, iterable, initial=__REDUCE_SENTINEL)`:
`value` starts as `initial` when given, else as the first item; an empty
iterable with no `initial` raises `TypeError`. -/
def reduce (f : α → α → α) (iterable : List α) (initial : Option α) :
    Except String α :=
  match initial with
  | some v => .ok (reduceLoop f v iterable)
  | none =>
    match iterable with
    | [] => .error "TypeError: reduce() of empty sequence with no initial value"
    | head :: tail => .ok (reduceLoop f head tail)

/-- Instrumented clone of `reduceLoop` that also counts how many times
`function` is applied. -/
def reduceLoopCount (f : α → α → α) : α → List α → Nat → α × Nat
  | value, [], n => (value, n)
  | value, head :: tail, n => reduceLoopCount f (f value head) tail (n + 1)

/-- Instrumented clone of `reduce` returning the result together with the
number of invocations of `function`. -/
def reduceCounted (f : α → α → α) (iterable : List α) (initial : Option α) :
    Except String (α × Nat) :=
  match initial with
  | some v => .ok (reduceLoopCount f v iterable 0)
  | none =>
    match iterable with
    | [] => .error "TypeError: reduce() of empty sequence with no initial value"
    | head :: tail => .ok (reduceLoopCount f head tail 0)

/-- A small universe of Python values, used to instantiate generic theorems
at domain values such as `None`, `0` and `[]`. -/
inductive PyObj where
  | pynone
  | pyint (n : Int)
  | pylist (l : List PyObj)

/-! ### `functools.CachedProperty`, sequential behaviour

Embeds `AwaitableValue` and `CachedProperty.__get__` from
`asyncstdlib/functools.py` for one descriptor field on one instance.
`CachedProperty` defines `__get__` but neither `__set__` nor `__delete__`,
so it is a non-data descriptor: Python's attribute lookup consults
`instance.__dict__` first and only falls back to `__get__` when the field is
absent.  The getter is modelled as a function of the invocation index so that
distinct invocations can be told apart. -/

/-- Embedding of `AwaitableValue`: a pre-computed value whose `__await__`
immediately produces `value`. -/
structure AwaitableValue (α : Type) where
  value : α
deriving DecidableEq, Repr

/-- Awaiting an `AwaitableValue` (its `__await__` returns `self.value`). -/
def AwaitableValue.awaited (av : AwaitableValue α) : α := av.value

/-- The per-instance state relevant to one cached-property field: the
`instance.__dict__` slot under the field's name, plus a count of getter
invocations. -/
structure CPState (α : Type) where
  attr : Option (AwaitableValue α)
  invocations : Nat
deriving DecidableEq, Repr

/-- A fresh instance: no stored attribute, getter never invoked. -/
def CPState.fresh : CPState α := ⟨none, 0⟩

/-- One sequential `await instance.field` access.  Attribute lookup finds the
`__dict__` entry first (non-data descriptor) and awaiting it yields its
payload; on a miss the `__get__` coroutine runs to completion: the `try`
lookup raises `KeyError`, `value = await self.__wrapped__(instance)` invokes
the getter, and since the name is still absent the result is stored as an
`AwaitableValue` and returned. -/
def cpAccess (getter : Nat → α) (st : CPState α) : α × CPState α :=
  match st.attr with
  | some av => (av.awaited, st)
  | none =>
    let value := getter st.invocations
    (value, ⟨some ⟨value⟩, st.invocations + 1⟩)

/-- `n` further sequential accesses, collecting the returned values. -/
def cpAccessN (getter : Nat → α) : Nat → CPState α → List α × CPState α
  | 0, st => ([], st)
  | n + 1, st =>
    let (v, st') := cpAccess getter st
    let (vs, st'') := cpAccessN getter n st'
    (v :: vs, st'')

/-! ### `functools.CachedProperty`, concurrent first accesses

Interleaving model of two concurrent `await instance.field` accesses on the
same not-yet-populated field.  Each access is a coroutine with two atomic
synchronous blocks:

* block 1 — attribute lookup plus, on a miss, the body of `__get__` up to the
  suspension point `value = await self.__wrapped__(instance)`: if the
  `__dict__` slot holds a value the access finishes with it, otherwise the
  getter is invoked and the coroutine suspends;
* block 2 — resumption once the getter finished: `if self._name not in
  attributes: attributes[self._name] = AwaitableValue(value)` and return of
  this coroutine's own `value`.

A schedule is the list of caller indices in the order their blocks run. -/

/-- Phase of one concurrent cached-property access. -/
inductive CPPhase (α : Type) where
  | ready
  | waiting (value : α)
  | finished (value : α)
deriving DecidableEq, Repr

/-- Shared state of the two-caller race: the `__dict__` slot, the getter
invocation count and each caller's phase. -/
structure CPRace (α : Type) where
  attr : Option α
  invocations : Nat
  ph0 : CPPhase α
  ph1 : CPPhase α
deriving DecidableEq, Repr

/-- Both accesses poised to run on a fresh instance. -/
def CPRace.fresh : CPRace α := ⟨none, 0, .ready, .ready⟩

/-- Phase of caller `c`. -/
def CPRace.phase (st : CPRace α) (c : Bool) : CPPhase α :=
  if c then st.ph1 else st.ph0

/-- Replace the phase of caller `c`. -/
def CPRace.setPhase (st : CPRace α) (c : Bool) (p : CPPhase α) : CPRace α :=
  if c then { st with ph1 := p } else { st with ph0 := p }

/-- Run one atomic block of caller `c` (see the block description above).
A finished caller has no block left, so its steps are no-ops. -/
def cpRaceStep (getter : Nat → α) (st : CPRace α) (c : Bool) : CPRace α :=
  match st.phase c with
  | .ready =>
    match st.attr with
    | some v => st.setPhase c (.finished v)
    | none =>
      let value := getter st.invocations
      { st.setPhase c (.waiting value) with invocations := st.invocations + 1 }
  | .waiting value =>
    let st' := match st.attr with
      | none => { st with attr := some value }
      | some _ => st
    st'.setPhase c (.finished value)
  | .finished _ => st

/-- Run a whole schedule of atomic blocks from the fresh two-caller state. -/
def cpRaceRun (getter : Nat → α) (sched : List Bool) : CPRace α :=
  sched.foldl (cpRaceStep getter) CPRace.fresh

/-! ### `heapq.merge`

Embeds `asyncstdlib/heapq.py`.  Items are drawn from a linearly ordered type;
Python exceptions are modelled as `Except String` (comparison and call
failures) or as the second component of the final result (errors escaping the
async generator after some items were already yielded).  The `key` argument
is `None`, a synchronous callable or an asynchronous callable; calling an
async callable produces a coroutine object, which only `await` turns into a
value, and `await`-ing a plain value raises `TypeError`. -/

/-- The `key=` argument of `merge`: Python `None`, a sync or an async
one-argument callable. -/
inductive KeyMode (α : Type) where
  | idKey
  | syncKey (f : α → α)
  | asyncKey (f : α → α)

/-- A Python value used as a stored head key: either an ordinary value or an
un-awaited coroutine object that would produce `a`. -/
inductive PyKey (α : Type) where
  | val (a : α)
  | coro (a : α)
deriving DecidableEq, Repr

/-- Embedding of `_KeyIter`: the buffered `head`, its stored `head_key`, the
remaining `tail` of the iterator, and the `reverse`/`key` configuration. -/
structure KeyIter (α : Type) where
  head : α
  head_key : PyKey α
  tail : List α
  reverse : Bool
  key : KeyMode α

/-- The expression `await key(head)` in `_KeyIter.from_iters`: `key` is
called unconditionally, so `None` raises `TypeError`; a sync callable returns
a plain value which cannot be awaited; an async callable returns a coroutine
which `await` resolves. -/
def awaitKeyCall (key : KeyMode α) (head : α) : Except String α :=
  match key with
  | .idKey => .error "TypeError: NoneType object is not callable"
  | .syncKey _ => .error "TypeError: object cannot be used in await expression"
  | .asyncKey f => .ok (f head)

/-- Embedding of the async generator `_KeyIter.from_iters`: for each
iterable, an empty one is skipped (`StopAsyncIteration`), otherwise a
`_KeyIter` is built from its first item with `head_key = await key(head)`. -/
def fromIters (iterables : List (List α)) (reverse : Bool) (key : KeyMode α) :
    Except String (List (KeyIter α)) :=
  match iterables with
  | [] => .ok []
  | [] :: rest => fromIters rest reverse key
  | (head :: tail) :: rest =>
    match awaitKeyCall key head with
    | .error e => .error e
    | .ok hk =>
      match fromIters rest reverse key with
      | .error e => .error e
      | .ok more => .ok (⟨head, .val hk, tail, reverse, key⟩ :: more)

/-- Embedding of `_KeyIter.pull_head`: `none` models `return False` on
`StopAsyncIteration`; otherwise the new `head_key` is
`self.key(head) if self.key is not None else head` — note the call is NOT
awaited, so an async `key` leaves a coroutine object in `head_key`. -/
def pullHead (it : KeyIter α) : Option (KeyIter α) :=
  match it.tail with
  | [] => none
  | head :: t =>
    let hk : PyKey α :=
      match it.key with
      | .idKey => .val head
      | .syncKey f => .val (f head)
      | .asyncKey f => .coro (f head)
    some { it with head := head, head_key := hk, tail := t }

/-- Python `<` on stored head keys: comparing a coroutine object with
anything raises `TypeError`. -/
def PyKey.lt [LT α] [DecidableRel (α := α) (· < ·)] :
    PyKey α → PyKey α → Except String Bool
  | .val a, .val b => .ok (decide (a < b))
  | _, _ => .error "TypeError: < not supported between instances"

/-- Embedding of `_KeyIter.__lt__`:
`self.reverse ^ (self.head_key < other.head_key)`. -/
def KeyIter.lt [LT α] [DecidableRel (α := α) (· < ·)] (x y : KeyIter α) :
    Except String Bool :=
  match PyKey.lt x.head_key y.head_key with
  | .error e => .error e
  | .ok b => .ok (xor x.reverse b)

/-- Comparison of the heap entries `(itr, idx)`.  Python tuple comparison
first tests the `_KeyIter` components with `==`; `_KeyIter` does not define
`__eq__`, so the distinct iterator objects on the heap are never equal and
the tuple comparison reduces to `_KeyIter.__lt__`; `idx` never takes part. -/
def entryLt [LT α] [DecidableRel (α := α) (· < ·)]
    (x y : KeyIter α × Int) : Except String Bool :=
  KeyIter.lt x.1 y.1

/-! Embedding of CPython's `heapq` (`heapify`, `heapreplace`, `heappop`)
over lists, with a fallible comparison. -/

/-- The up-moving phase `heapq._siftdown(heap, startpos, pos)`, with
`newitem = heap[pos]` already read.  `fuel` only bounds the loop so that the
recursion is structural; `pos` strictly decreases towards `startpos`, so any
fuel above `pos` can never run out. -/
def siftdown (lt : β → β → Except String Bool) :
    Nat → List β → Nat → Nat → β → Except String (List β)
  | 0, _, _, _, _ => .error "<fuel exhausted>"
  | fuel + 1, heap, startpos, pos, newitem =>
    if startpos < pos then
      let parentpos := (pos - 1) / 2
      match heap.get? parentpos with
      | none => .error "IndexError: list index out of range"
      | some parent =>
        match lt newitem parent with
        | .error e => .error e
        | .ok true =>
          siftdown lt fuel (heap.set pos parent) startpos parentpos newitem
        | .ok false => .ok (heap.set pos newitem)
    else .ok (heap.set pos newitem)

/-- The down-moving loop of `heapq._siftup(heap, pos)`, with
`newitem = heap[pos]` already read; ends by writing `newitem` at the leaf and
calling `_siftdown`.  `pos` at least doubles each iteration while staying
below the unchanged heap length, so any fuel above the heap length can never
run out. -/
def siftupLoop (lt : β → β → Except String Bool) :
    Nat → List β → Nat → Nat → β → Except String (List β)
  | 0, _, _, _, _ => .error "<fuel exhausted>"
  | fuel + 1, heap, startpos, pos, newitem =>
    let childpos := 2 * pos + 1
    if childpos < heap.length then
      if childpos + 1 < heap.length then
        match heap.get? childpos, heap.get? (childpos + 1) with
        | some cl, some cr =>
          match lt cl cr with
          | .error e => .error e
          | .ok true =>
            siftupLoop lt fuel (heap.set pos cl) startpos childpos newitem
          | .ok false =>
            siftupLoop lt fuel (heap.set pos cr) startpos (childpos + 1) newitem
        | _, _ => .error "IndexError: list index out of range"
      else
        match heap.get? childpos with
        | none => .error "IndexError: list index out of range"
        | some cl => siftupLoop lt fuel (heap.set pos cl) startpos childpos newitem
    else
      siftdown lt (pos + 1) (heap.set pos newitem) startpos pos newitem

/-- `heapq._siftup(heap, pos)` (reads `newitem = heap[pos]` first). -/
def siftup (lt : β → β → Except String Bool) (heap : List β) (pos : Nat) :
    Except String (List β) :=
  match heap.get? pos with
  | none => .error "IndexError: list index out of range"
  | some newitem => siftupLoop lt (heap.length + 1) heap pos pos newitem

/-- The loop `for i in reversed(range(n//2)): _siftup(x, i)` of
`heapq.heapify`, counting `i` down from `n/2 - 1`. -/
def heapifyLoop (lt : β → β → Except String Bool) :
    Nat → List β → Except String (List β)
  | 0, heap => .ok heap
  | i + 1, heap =>
    match siftup lt heap i with
    | .error e => .error e
    | .ok heap' => heapifyLoop lt i heap'

/-- Embedding of `heapq.heapify`. -/
def heapify (lt : β → β → Except String Bool) (heap : List β) :
    Except String (List β) :=
  heapifyLoop lt (heap.length / 2) heap

/-- Embedding of `heapq.heappop`: pop the last element, move it to the root
and sift; returns the removed root together with the new heap. -/
def heappop (lt : β → β → Except String Bool) (heap : List β) :
    Except String (β × List β) :=
  match heap.getLast? with
  | none => .error "IndexError: pop from empty list"
  | some lastelt =>
    match heap.dropLast with
    | [] => .ok (lastelt, [])
    | r0 :: rtail =>
      match siftup lt (lastelt :: rtail) 0 with
      | .error e => .error e
      | .ok heap' => .ok (r0, heap')

/-- Embedding of `heapq.heapreplace`: replace the root with `item` and sift;
returns the removed root with the new heap (`IndexError` on an empty heap). -/
def heapreplace (lt : β → β → Except String Bool) (heap : List β) (item : β) :
    Except String (β × List β) :=
  match heap with
  | [] => .error "IndexError: list index out of range"
  | r0 :: rtail =>
    match siftup lt (item :: rtail) 0 with
    | .error e => .error e
    | .ok heap' => .ok (r0, heap')

/-- The inner `while True:` loop of `merge` (note the source never re-checks
`len(iter_heap) > 1`): read `iter_heap[0]`, yield its head, pull the next
element and `heapreplace`, or `heappop` the exhausted iterator.  The loop can
only end through an exception, reported beside the yielded items.  `fuel`
bounds the number of iterations; every iteration consumes either one buffered
item or one iterator, so any fuel above the total item and iterator count is
enough. -/
def mergeLoop [LT α] [DecidableRel (α := α) (· < ·)] :
    Nat → List (KeyIter α × Int) → List α → List α × Option String
  | 0, _, acc => (acc, some "<fuel exhausted>")
  | fuel + 1, heap, acc =>
    match heap.head? with
    | none => (acc, some "IndexError: list index out of range")
    | some (it, idx) =>
      let acc := acc ++ [it.head]
      match pullHead it with
      | some it' =>
        match heapreplace entryLt heap (it', idx) with
        | .error e => (acc, some e)
        | .ok (_, heap') => mergeLoop fuel heap' acc
      | none =>
        match heappop entryLt heap with
        | .error e => (acc, some e)
        | .ok (_, heap') => mergeLoop fuel heap' acc

/-- An iteration bound for `mergeLoop` that the run can never reach. -/
def mergeFuel (iterables : List (List α)) : Nat :=
  (iterables.map List.length).sum + iterables.length + 1

/-- Embedding of `merge(*iterables, key=None, reverse=False)` as a whole:
the result is the list of yielded items together with the error, if any,
that ends the generator (`none` models normal termination through
`StopAsyncIteration`).  Mirrors the source: build the `(itr, idx)` list from
`from_iters`, `heapify` it, run the merging loop while more than one iterator
is present, else drain the single remaining iterator directly. -/
def merge [LT α] [DecidableRel (α := α) (· < ·)]
    (iterables : List (List α)) (key : KeyMode α) (reverse : Bool) :
    List α × Option String :=
  match fromIters iterables reverse key with
  | .error e => ([], some e)
  | .ok iters =>
    let entries : List (KeyIter α × Int) :=
      iters.enum.map
        (fun p => (p.2, if reverse then -(p.1 : Int) else (p.1 : Int)))
    match heapify entryLt entries with
    | .error e => ([], some e)
    | .ok heap =>
      if heap.length > 1 then
        mergeLoop (mergeFuel iterables) heap []
      else
        match heap with
        | [] => ([], none)
        | (it, _) :: _ => (it.head :: it.tail, none)

/-! ### The LRU cache, sequential model

Modelled from the spec: the module `asyncstdlib/_lrucache.py` implementing
`lru_cache`, `CacheInfo` and `LRUAsyncCallable` is imported by
`asyncstdlib/functools.py` but is not part of the source tree, so the
following definitions are built from the specification (sections 2-4 and 7-8):
an ordered key-to-value map with the most-recently-used entry first, O(1)
promotion on hit, insertion at the most-recently-used end on successful miss
with eviction of the least-recently-used entry beyond capacity, hit/miss
counters, failures propagated and never cached. -/

/-- Modelled from the spec: the mutable state of one cache instance — the
recency-ordered store (most-recently-used first), the hit and miss counters
and, as instrumentation, the number of invocations of the wrapped
function. -/
structure CacheState (κ ω : Type) where
  store : List (κ × ω)
  hits : Nat
  misses : Nat
  invocations : Nat
deriving DecidableEq, Repr

/-- A cache that has never been called. -/
def CacheState.fresh : CacheState κ ω := ⟨[], 0, 0, 0⟩

/-- Lookup of a key in the recency-ordered store. -/
def storeLookup [DecidableEq κ] : List (κ × ω) → κ → Option ω
  | [], _ => none
  | (k', v) :: rest, k => if k = k' then some v else storeLookup rest k

/-- Removal of a key from the store. -/
def storeErase [DecidableEq κ] (store : List (κ × ω)) (k : κ) : List (κ × ω) :=
  store.filter (fun p => decide (p.1 ≠ k))

/-- Modelled from the spec: one call of the wrapped callable with key `k`.
`out` is the result the underlying function would produce if invoked; it is
consulted only on a miss.  On a hit the key is promoted to the
most-recently-used position and `hits` grows; on a successful miss the value
is inserted at the most-recently-used end, entries beyond `maxsize` are
evicted from the least-recently-used end and `misses` grows; on a failing
miss the error propagates, nothing is stored and `misses` grows. -/
def cacheStep [DecidableEq κ] (maxsize : Option Nat) (st : CacheState κ ω)
    (k : κ) (out : Except ε ω) : Except ε ω × CacheState κ ω :=
  match storeLookup st.store k with
  | some v =>
    (.ok v,
     { st with store := (k, v) :: storeErase st.store k, hits := st.hits + 1 })
  | none =>
    match out with
    | .ok v =>
      let store' := (k, v) :: st.store
      (.ok v,
       { st with
         store := match maxsize with
           | some n => store'.take n
           | none => store'
         misses := st.misses + 1
         invocations := st.invocations + 1 })
    | .error e =>
      (.error e,
       { st with misses := st.misses + 1, invocations := st.invocations + 1 })

/-- Modelled from the spec: the immutable `CacheInfo` snapshot. -/
structure CacheInfo where
  hits : Nat
  misses : Nat
  maxsize : Option Nat
  currsize : Nat
deriving DecidableEq, Repr

/-- Modelled from the spec: `cache_info()`. -/
def cacheInfo (maxsize : Option Nat) (st : CacheState κ ω) : CacheInfo :=
  ⟨st.hits, st.misses, maxsize, st.store.length⟩

/-- Modelled from the spec: `cache_clear()` empties the store and resets the
counters. -/
def cacheClear (st : CacheState κ ω) : CacheState κ ω :=
  { st with store := [], hits := 0, misses := 0 }

/-- A sequence of calls against a pure, always-succeeding underlying
function `f`. -/
def cacheRun [DecidableEq κ] (maxsize : Option Nat) (f : κ → ω)
    (calls : List κ) (st : CacheState κ ω) : CacheState κ ω :=
  calls.foldl
    (fun s k => (cacheStep maxsize s k (Except.ok (f k) : Except Unit ω)).2) st

/-- The keys of a call history, most recent access first, each key listed
once at the position of its most recent occurrence: `firstDedup hist.reverse`
is the recency order after the calls `hist`. -/
def firstDedup [DecidableEq κ] : List κ → List κ
  | [] => []
  | a :: l => a :: (firstDedup l).filter (fun b => decide (b ≠ a))

/-! ### The LRU cache, concurrent callers for one key

Modelled from the spec: the pending-call discipline of section 4.2 for `K`
concurrent callers of one key, starting from a cache with no entry for it.
Each caller is a coroutine with atomic synchronous blocks:

* a `start` block — consult the store; on a hit finish with the cached value;
  otherwise consult the pending-call table atomically: if a computation is in
  flight become a waiter on its shared future, else register a fresh
  computation (one invocation of the underlying function) and become its
  leader;
* the leader's second block — the computation finished with `outcome`: store
  the value on success, resolve the shared future, drop the pending entry,
  finish with `outcome`;
* a waiter's block — finish with the shared future's result once resolved,
  otherwise keep waiting. -/

/-- Phase of one concurrent caller. -/
inductive LruPhase (ε ω : Type) where
  | start
  | leader
  | waiter
  | finished (r : Except ε ω)

/-- Modelled from the spec: the shared state for one key — the cached entry,
the pending-call flag, the shared future's resolution, the invocation count
and each caller's phase. -/
structure LruRace (K : Nat) (ε ω : Type) where
  cached : Option ω
  pending : Bool
  result : Option (Except ε ω)
  invocations : Nat
  phase : Fin K → LruPhase ε ω

/-- No cached entry, no pending call, all `K` callers poised to run. -/
def LruRace.fresh (K : Nat) : LruRace K ε ω :=
  ⟨none, false, none, 0, fun _ => .start⟩

/-- One atomic block of caller `i` (see the block description above);
`outcome` is the result the single underlying computation produces. -/
def lruStep (outcome : Except ε ω) (st : LruRace K ε ω) (i : Fin K) :
    LruRace K ε ω :=
  match st.phase i with
  | .start =>
    match st.cached with
    | some v => { st with phase := Function.update st.phase i (.finished (.ok v)) }
    | none =>
      if st.pending then
        { st with phase := Function.update st.phase i .waiter }
      else
        { st with
          pending := true
          invocations := st.invocations + 1
          phase := Function.update st.phase i .leader }
  | .leader =>
    { st with
      cached := match outcome with | .ok v => some v | .error _ => st.cached
      pending := false
      result := some outcome
      phase := Function.update st.phase i (.finished outcome) }
  | .waiter =>
    match st.result with
    | some r => { st with phase := Function.update st.phase i (.finished r) }
    | none => st
  | .finished _ => st

/-- Run a schedule of atomic blocks from the fresh `K`-caller state. -/
def lruRun (outcome : Except ε ω) (sched : List (Fin K)) : LruRace K ε ω :=
  sched.foldl (lruStep outcome) (LruRace.fresh K)

/-- Invariant of the two-caller cached-property race once both callers have
invoked the getter (caller of `ph0` got the first invocation's value `a`, the
other the second invocation's value `b`): the count stays at two, each caller
is waiting for or finished with its own computed value, and the stored
attribute is absent or one of the two computed values. -/
def CPRaceInv (a b : α) (st : CPRace α) : Prop :=
  st.invocations = 2
  ∧ (st.ph0 = .waiting a ∨ st.ph0 = .finished a)
  ∧ (st.ph1 = .waiting b ∨ st.ph1 = .finished b)
  ∧ (st.attr = none ∨ st.attr = some a ∨ st.attr = some b)

/-- Invariant of the pending-call race after the leader registered the
computation and before it completes: the pending entry is present, the shared
future unresolved, nothing cached, exactly one invocation, the leader in its
`leader` phase and everyone else still starting or already a waiter. -/
def LruInvPre (lead : Fin K) (st : LruRace K ε ω) : Prop :=
  st.pending = true ∧ st.result = none ∧ st.cached = none
  ∧ st.invocations = 1 ∧ st.phase lead = .leader
  ∧ ∀ i : Fin K, i ≠ lead → (st.phase i = .start ∨ st.phase i = .waiter)

/-- Invariant of the pending-call race once the leader resolved the shared
future with `outcome`: still exactly one invocation, and every caller is a
waiter or finished with exactly `outcome`. -/
def LruInvPost (outcome : Except ε ω) (st : LruRace K ε ω) : Prop :=
  st.invocations = 1 ∧ st.result = some outcome
  ∧ ∀ i : Fin K, st.phase i = .waiter ∨ st.phase i = .finished outcome

/-- The recency order (most recent first, one entry per key) after a further
sequence of calls, starting from the recency order `rec`: each call moves its
key to the front. -/
def recAfter [DecidableEq κ] (ks : List κ) (rec : List κ) : List κ :=
  ks.foldl (fun r k => k :: r.filter (fun b => decide (b ≠ k))) rec

/-! ## Theorems -/

/-- `firstDedup` keeps each element once. -/
theorem firstDedup_nodup {κ : Type} [DecidableEq κ] (l : List κ) :
    (firstDedup l).Nodup := by
  induction l with
  | nil => exact List.nodup_nil
  | cons a l ih =>
    rw [firstDedup, List.nodup_cons]
    refine ⟨fun hmem => ?_, ih.filter _⟩
    simp [List.mem_filter] at hmem

/-- Lookup in a store whose entries are `(k, f k)` for the keys `l`. -/
theorem storeLookup_map {κ : Type} [DecidableEq κ] {ω : Type} (f : κ → ω)
    (l : List κ) (k : κ) :
    storeLookup (l.map (fun k => (k, f k))) k
      = if k ∈ l then some (f k) else none := by
  induction l with
  | nil => simp [storeLookup]
  | cons a l ih =>
    by_cases hka : k = a
    · subst hka; simp [storeLookup]
    · simp [storeLookup, hka, ih]

/-- Erasure in a store whose entries are `(k, f k)` for the keys `l`. -/
theorem storeErase_map {κ : Type} [DecidableEq κ] {ω : Type} (f : κ → ω)
    (l : List κ) (k : κ) :
    storeErase (l.map (fun k => (k, f k))) k
      = (l.filter (fun b => decide (b ≠ k))).map (fun k => (k, f k)) := by
  induction l with
  | nil => rfl
  | cons a l ih =>
    by_cases hak : a = k
    · subst hak; simp [storeErase, List.filter] at ih ⊢; exact ih
    · simp [storeErase, List.filter, hak] at ih ⊢; exact ih

/-- Filtering one absent key away does not change a prefix: if `k` does not
occur among the first `n` elements, the first `m ≤ n` elements survive the
filter unchanged. -/
theorem take_filter_not_mem {κ : Type} [DecidableEq κ] :
    ∀ (l : List κ) (m n : Nat) (k : κ), m ≤ n → k ∉ l.take n →
      (l.filter (fun b => decide (b ≠ k))).take m = l.take m := by
  intro l
  induction l with
  | nil => intro m n k _ _; simp
  | cons a l ih =>
    intro m n k hmn hk
    match m, n with
    | 0, _ => simp
    | m + 1, 0 => omega
    | m + 1, n + 1 =>
      rw [List.take_succ_cons] at hk
      have hak : a ≠ k := fun h => hk (h ▸ List.mem_cons_self a _)
      have hk' : k ∉ l.take n := fun h => hk (List.mem_cons_of_mem a h)
      rw [List.filter_cons, if_pos (by simpa using hak), List.take_succ_cons,
        List.take_succ_cons, ih m n k (by omega) hk']

/-- Filtering a key out of a duplicate-free prefix that contains it shortens
the prefix by exactly one: taking `n` then filtering equals filtering then
taking `n - 1`. -/
theorem take_filter_mem {κ : Type} [DecidableEq κ] :
    ∀ (l : List κ) (n : Nat) (k : κ), l.Nodup → k ∈ l.take n →
      (l.take n).filter (fun b => decide (b ≠ k))
        = (l.filter (fun b => decide (b ≠ k))).take (n - 1) := by
  intro l
  induction l with
  | nil => intro n k _ h; simp at h
  | cons a l ih =>
    intro n k hnd hk
    match n with
    | 0 => simp at hk
    | n + 1 =>
      obtain ⟨ha, hnd'⟩ := List.nodup_cons.mp hnd
      rw [List.take_succ_cons] at hk
      rw [List.take_succ_cons]
      by_cases hka : k = a
      · subst hka
        have hknt : k ∉ l.take n := fun h => ha (List.take_subset n l h)
        rw [List.filter_cons, if_neg (by simp), List.filter_cons,
          if_neg (by simp), Nat.add_sub_cancel]
        have hfl : l.filter (fun b => decide (b ≠ k)) = l :=
          List.filter_eq_self.mpr (fun b hb => by
            simp only [decide_eq_true_eq]
            exact fun hbk => ha (hbk ▸ hb))
        have hft : (l.take n).filter (fun b => decide (b ≠ k)) = l.take n :=
          List.filter_eq_self.mpr (fun b hb => by
            simp only [decide_eq_true_eq]
            exact fun hbk => hknt (hbk ▸ hb))
        rw [hfl, hft]
      · have hk' : k ∈ l.take n := by
          rcases List.mem_cons.mp hk with h | h
          · exact absurd h hka
          · exact h
        obtain ⟨p, rfl⟩ : ∃ p, n = p + 1 := by
          match n with
          | 0 => simp at hk'
          | p + 1 => exact ⟨p, rfl⟩
        have hak : a ≠ k := fun h => hka h.symm
        rw [List.filter_cons, if_pos (by simpa using hak),
          List.filter_cons, if_pos (by simpa using hak),
          Nat.add_sub_cancel, List.take_succ_cons]
        have hih := ih (p + 1) k hnd' hk'
        rw [Nat.add_sub_cancel] at hih
        exact congrArg (a :: ·) hih

/-- One further call appended to the history moves its key to the front of
the recency order. -/
theorem recAfter_snoc {κ : Type} [DecidableEq κ] (ks : List κ) (rec : List κ)
    (k : κ) :
    recAfter (ks ++ [k]) rec
      = k :: (recAfter ks rec).filter (fun b => decide (b ≠ k)) := by
  simp [recAfter, List.foldl_append]

/-- The recency order of a whole history is `firstDedup` of its reversal. -/
theorem recAfter_nil_eq {κ : Type} [DecidableEq κ] (ks : List κ) :
    recAfter ks [] = firstDedup ks.reverse := by
  induction ks using List.reverseRecOn with
  | nil => rfl
  | append_singleton ks k ih =>
    rw [recAfter_snoc, ih, List.reverse_append]
    simp [firstDedup]

/-- A call keeps the recency order duplicate-free. -/
theorem recStep_nodup {κ : Type} [DecidableEq κ] {rec : List κ}
    (h : rec.Nodup) (k : κ) :
    (k :: rec.filter (fun b => decide (b ≠ k))).Nodup := by
  rw [List.nodup_cons]
  refine ⟨fun hm => ?_, h.filter _⟩
  simp [List.mem_filter] at hm

/-- The cache store after any sequence of successful calls holds exactly the
first `N` keys of the updated recency order, each mapped to its computed
value. -/
theorem cacheRun_store_aux {κ : Type} [DecidableEq κ] {ω : Type} (N : Nat)
    (f : κ → ω) :
    ∀ (ks rec : List κ), rec.Nodup →
    ∀ st : CacheState κ ω,
      st.store = (rec.take N).map (fun k => (k, f k)) →
      (cacheRun (some N) f ks st).store
        = ((recAfter ks rec).take N).map (fun k => (k, f k)) := by
  intro ks
  induction ks with
  | nil => intro rec _ st hst; exact hst
  | cons k ks ih =>
    intro rec hnd st hst
    have hrun : cacheRun (some N) f (k :: ks) st
        = cacheRun (some N) f ks
            ((cacheStep (some N) st k (Except.ok (f k) : Except Unit ω)).2) := rfl
    have hrec : recAfter (k :: ks) rec
        = recAfter ks (k :: rec.filter (fun b => decide (b ≠ k))) := rfl
    rw [hrun, hrec]
    apply ih _ (recStep_nodup hnd k)
    by_cases hmem : k ∈ rec.take N
    · have hlook : storeLookup st.store k = some (f k) := by
        rw [hst, storeLookup_map]
        simp [hmem]
      obtain ⟨m, rfl⟩ : ∃ m, N = m + 1 := by
        match N with
        | 0 => simp at hmem
        | m + 1 => exact ⟨m, rfl⟩
      simp only [cacheStep, hlook]
      rw [hst, storeErase_map, take_filter_mem rec (m + 1) k hnd hmem]
      simp [List.take_succ_cons]
    · have hlook : storeLookup st.store k = none := by
        rw [hst, storeLookup_map]
        simp [hmem]
      simp only [cacheStep, hlook]
      match N with
      | 0 => simp
      | m + 1 =>
        rw [hst, List.take_succ_cons, List.take_succ_cons, List.map_cons]
        rw [← List.map_take, List.take_take]
        rw [take_filter_not_mem rec m (m + 1) k (by omega) hmem]
        have hmin : min m (m + 1) = m := by omega
        rw [hmin]

/-- C4: with `max_size = N` and keys drawn from any finite set, after every
sequence of (successful) calls the store holds at most `N` keys, and exactly
those whose most recent access — hit or initial insertion — lies among the
`N` most recent distinct-key accesses, ordered by recency with the
least-recently-used entry at the eviction end; consequently the entry evicted
on overflow is always the one whose most recent access is chronologically
earliest. -/
theorem lru_store_characterization {κ : Type} [DecidableEq κ] {ω : Type}
    (N : Nat) (f : κ → ω) (ks : List κ) :
    (cacheRun (some N) f ks (CacheState.fresh : CacheState κ ω)).store
      = ((firstDedup ks.reverse).take N).map (fun k => (k, f k))
    ∧ (cacheRun (some N) f ks (CacheState.fresh : CacheState κ ω)).store.length
        ≤ N := by
  have h := cacheRun_store_aux N f ks [] List.nodup_nil
    (CacheState.fresh : CacheState κ ω) (by simp [CacheState.fresh])
  rw [recAfter_nil_eq] at h
  refine ⟨h, ?_⟩
  rw [h, List.length_map]
  exact List.length_take_le _ _

/-- Splitting a run of the pending-call race at a schedule boundary. -/
theorem lruRun_append {ε ω : Type} {K : Nat} (outcome : Except ε ω)
    (l₁ l₂ : List (Fin K)) :
    lruRun outcome (l₁ ++ l₂) = l₂.foldl (lruStep outcome) (lruRun outcome l₁) :=
  List.foldl_append _ _ _ _

/-- A non-leader step before completion preserves `LruInvPre`, makes the
stepping caller a waiter, and keeps every existing waiter a waiter. -/
theorem lruStep_pre {ε ω : Type} {K : Nat} {lead : Fin K}
    (outcome : Except ε ω) {st : LruRace K ε ω} (h : LruInvPre lead st)
    {j : Fin K} (hj : j ≠ lead) :
    LruInvPre lead (lruStep outcome st j)
    ∧ (lruStep outcome st j).phase j = .waiter
    ∧ ∀ i : Fin K, st.phase i = .waiter →
        (lruStep outcome st j).phase i = .waiter := by
  obtain ⟨hp, hr, hc, hi, hl, ho⟩ := h
  rcases ho j hj with hj1 | hj1
  · have hstep : lruStep outcome st j
        = { st with phase := Function.update st.phase j .waiter } := by
      simp [lruStep, hj1, hc, hp]
    rw [hstep]
    refine ⟨⟨hp, hr, hc, hi, ?_, ?_⟩, ?_, ?_⟩
    · simpa [Function.update_apply, Ne.symm hj] using hl
    · intro i hi'
      by_cases hij : i = j
      · subst hij; simp [Function.update_apply]
      · simpa [Function.update_apply, hij] using ho i hi'
    · simp [Function.update_apply]
    · intro i hw
      by_cases hij : i = j
      · subst hij; simp [Function.update_apply]
      · simpa [Function.update_apply, hij] using hw
  · have hstep : lruStep outcome st j = st := by
      simp [lruStep, hj1, hr]
    rw [hstep]
    exact ⟨⟨hp, hr, hc, hi, hl, ho⟩, hj1, fun i hw => hw⟩

/-- Folding the first steps of the non-leader callers preserves `LruInvPre`
and leaves every caller that appears in the schedule a waiter. -/
theorem lruFold_pre {ε ω : Type} {K : Nat} {lead : Fin K}
    (outcome : Except ε ω) {st : LruRace K ε ω} (h : LruInvPre lead st)
    (l : List (Fin K)) (hl : ∀ j ∈ l, j ≠ lead) :
    LruInvPre lead (l.foldl (lruStep outcome) st)
    ∧ (∀ i : Fin K, st.phase i = .waiter →
        (l.foldl (lruStep outcome) st).phase i = .waiter)
    ∧ ∀ i ∈ l, (l.foldl (lruStep outcome) st).phase i = .waiter := by
  induction l generalizing st with
  | nil => exact ⟨h, fun _ hw => hw, fun i hi => absurd hi (List.not_mem_nil i)⟩
  | cons j l ih =>
    have hj : j ≠ lead := hl j (List.mem_cons_self j l)
    obtain ⟨h1, h2, h3⟩ := lruStep_pre outcome h hj
    obtain ⟨ih1, ih2, ih3⟩ := ih h1 (fun a ha => hl a (List.mem_cons_of_mem j ha))
    refine ⟨ih1, fun i hw => ih2 i (h3 i hw), ?_⟩
    intro i hi
    rcases List.mem_cons.mp hi with rfl | hi
    · exact ih2 i h2
    · exact ih3 i hi

/-- The leader's completion step establishes `LruInvPost` when every other
caller has become a waiter. -/
theorem lruStep_complete {ε ω : Type} {K : Nat} {lead : Fin K}
    (outcome : Except ε ω) {st : LruRace K ε ω} (h : LruInvPre lead st)
    (hw : ∀ i : Fin K, i ≠ lead → st.phase i = .waiter) :
    LruInvPost outcome (lruStep outcome st lead) := by
  obtain ⟨hp, hr, hc, hi, hl, ho⟩ := h
  have hstep : lruStep outcome st lead
      = { st with
          cached := match outcome with | .ok v => some v | .error _ => st.cached
          pending := false, result := some outcome
          phase := Function.update st.phase lead (.finished outcome) } := by
    simp [lruStep, hl]
  rw [hstep]
  refine ⟨hi, rfl, ?_⟩
  intro i
  by_cases hil : i = lead
  · subst hil; simp [Function.update_apply]
  · have := hw i hil
    simp [Function.update_apply, hil, this]

/-- After completion, every step preserves `LruInvPost`, finishes the
stepping caller with `outcome`, and keeps finished callers finished. -/
theorem lruStep_post {ε ω : Type} {K : Nat} (outcome : Except ε ω)
    {st : LruRace K ε ω} (h : LruInvPost outcome st) (c : Fin K) :
    LruInvPost outcome (lruStep outcome st c)
    ∧ (lruStep outcome st c).phase c = .finished outcome
    ∧ ∀ i : Fin K, st.phase i = .finished outcome →
        (lruStep outcome st c).phase i = .finished outcome := by
  obtain ⟨hi, hr, hp⟩ := h
  rcases hp c with hc | hc
  · have hstep : lruStep outcome st c
        = { st with phase := Function.update st.phase c (.finished outcome) } := by
      simp [lruStep, hc, hr]
    rw [hstep]
    refine ⟨⟨hi, hr, ?_⟩, ?_, ?_⟩
    · intro i
      by_cases hic : i = c
      · subst hic; simp [Function.update_apply]
      · simpa [Function.update_apply, hic] using hp i
    · simp [Function.update_apply]
    · intro i hfin
      by_cases hic : i = c
      · subst hic; simp [Function.update_apply]
      · simpa [Function.update_apply, hic] using hfin
  · have hstep : lruStep outcome st c = st := by
      simp [lruStep, hc]
    rw [hstep]
    exact ⟨⟨hi, hr, hp⟩, hc, fun i hfin => hfin⟩

/-- Folding any schedule after completion preserves `LruInvPost` and finishes
every caller the schedule mentions. -/
theorem lruFold_post {ε ω : Type} {K : Nat} (outcome : Except ε ω)
    {st : LruRace K ε ω} (h : LruInvPost outcome st) (l : List (Fin K)) :
    LruInvPost outcome (l.foldl (lruStep outcome) st)
    ∧ (∀ i : Fin K, st.phase i = .finished outcome →
        (l.foldl (lruStep outcome) st).phase i = .finished outcome)
    ∧ ∀ i ∈ l, (l.foldl (lruStep outcome) st).phase i = .finished outcome := by
  induction l generalizing st with
  | nil => exact ⟨h, fun _ hf => hf, fun i hi => absurd hi (List.not_mem_nil i)⟩
  | cons c l ih =>
    obtain ⟨h1, h2, h3⟩ := lruStep_post outcome h c
    obtain ⟨ih1, ih2, ih3⟩ := ih h1
    refine ⟨ih1, fun i hf => ih2 i (h3 i hf), ?_⟩
    intro i hi
    rcases List.mem_cons.mp hi with rfl | hi
    · exact ih2 i h2
    · exact ih3 i hi

/-- Every step of the cached-property race preserves `CPRaceInv`. -/
theorem cpRaceStep_inv {α : Type} {a b : α} (g : Nat → α) {st : CPRace α}
    (h : CPRaceInv a b st) (c : Bool) : CPRaceInv a b (cpRaceStep g st c) := by
  obtain ⟨h1, h2, h3, h4⟩ := h
  obtain ⟨attr, inv, p0, p1⟩ := st
  simp only at h1 h2 h3 h4
  subst h1
  cases c <;> rcases h2 with h2 | h2 <;> rcases h3 with h3 | h3 <;>
    rcases h4 with h4 | h4 | h4 <;> subst h2 <;> subst h3 <;> subst h4 <;>
      simp [CPRaceInv, cpRaceStep, CPRace.phase, CPRace.setPhase]

/-- Folding any schedule preserves `CPRaceInv`. -/
theorem cpRaceFold_inv {α : Type} {a b : α} (g : Nat → α) {st : CPRace α}
    (h : CPRaceInv a b st) (l : List Bool) :
    CPRaceInv a b (l.foldl (cpRaceStep g) st) := by
  induction l generalizing st with
  | nil => exact h
  | cons c l ih => exact ih (cpRaceStep_inv g h c)

/-- A populated attribute slot is never overwritten by any later step. -/
theorem cpRaceStep_attr {α : Type} {v : α} (g : Nat → α) {st : CPRace α}
    (h : st.attr = some v) (c : Bool) : (cpRaceStep g st c).attr = some v := by
  obtain ⟨attr, inv, p0, p1⟩ := st
  simp only at h
  subst h
  cases c <;> cases p0 <;> cases p1 <;>
    simp [cpRaceStep, CPRace.phase, CPRace.setPhase]

/-- A populated attribute slot survives any remaining schedule. -/
theorem cpRaceFold_attr {α : Type} {v : α} (g : Nat → α) {st : CPRace α}
    (h : st.attr = some v) (l : List Bool) :
    (l.foldl (cpRaceStep g) st).attr = some v := by
  induction l generalizing st with
  | nil => exact h
  | cons c l ih => exact ih (cpRaceStep_attr g h c)

/-- C9: `reduce` raises `TypeError` exactly when the iterable is empty and no
`initial` argument was passed; for every explicitly passed `initial` value
`v` the reduction of the empty iterable returns `v` — absence is detected by
the dedicated sentinel (here the `none` of the `Option`, matching the unique
module-level `Sentinel` object), never by a domain value. -/
theorem reduce_typeerror_iff {α : Type} (f : α → α → α) (xs : List α)
    (init : Option α) :
    (reduce f xs init
        = Except.error "TypeError: reduce() of empty sequence with no initial value"
      ↔ xs = [] ∧ init = none)
    ∧ ∀ v : α, reduce f [] (some v) = Except.ok v := by
  constructor
  · cases init <;> cases xs <;> simp [reduce]
  · intro v; rfl

/-- Witness for `reduce_typeerror_iff`, instantiated at Python-like domain
values (`None` among them). -/
theorem reduce_typeerror_iff_witness :
    reduce (fun a _ => a) ([] : List PyObj) none
      = Except.error "TypeError: reduce() of empty sequence with no initial value"
    ∧ reduce (fun a _ => a) ([] : List PyObj) (some PyObj.pynone)
      = Except.ok PyObj.pynone :=
  ⟨(reduce_typeerror_iff (fun a _ => a) [] none).1.2 ⟨rfl, rfl⟩,
   (reduce_typeerror_iff (fun a _ => a) [] none).2 PyObj.pynone⟩

/-- C10: when the combination of `initial` and iterable holds exactly one
item — a one-element iterable with no `initial`, or an empty iterable with an
`initial` — `reduce` returns that item, and the counting instrumentation
shows the binary function is applied zero times. -/
theorem reduce_single_item {α : Type} (f : α → α → α) (x v : α) :
    reduce f [x] none = Except.ok x
    ∧ reduce f [] (some v) = Except.ok v
    ∧ reduceCounted f [x] none = Except.ok (x, 0)
    ∧ reduceCounted f [] (some v) = Except.ok (v, 0) :=
  ⟨rfl, rfl, rfl, rfl⟩

/-- C8: sequential cached-property accesses on one instance: the first access
invokes the getter exactly once and stores its result under the field's name;
every one of the `n` following accesses returns that same stored value with
the invocation count still at one. -/
theorem cached_property_sequential {α : Type} (g : Nat → α) (n : Nat) :
    cpAccess g (CPState.fresh : CPState α) = (g 0, ⟨some ⟨g 0⟩, 1⟩)
    ∧ cpAccessN g n ⟨some ⟨g 0⟩, 1⟩
        = (List.replicate n (g 0), ⟨some ⟨g 0⟩, 1⟩) := by
  refine ⟨rfl, ?_⟩
  induction n with
  | zero => rfl
  | succ m ih =>
    simp only [cpAccessN, cpAccess, AwaitableValue.awaited, ih,
      List.replicate_succ]

/-- C6: from a fresh cache, issuing the same (successful) call twice yields
`misses = 1`, `hits = 1` and one stored entry; `cache_clear()` resets both
counters to zero and empties the store, so `currsize = 0`. -/
theorem lru_hit_miss_clear {κ : Type} [DecidableEq κ] {ε ω : Type}
    (N : Nat) (k : κ) (v : ω) :
    cacheInfo (some (N + 1))
        (cacheStep (some (N + 1))
          (cacheStep (some (N + 1)) (CacheState.fresh : CacheState κ ω) k
            (Except.ok v : Except ε ω)).2 k (Except.ok v : Except ε ω)).2
      = ⟨1, 1, some (N + 1), 1⟩
    ∧ cacheInfo (some (N + 1))
        (cacheClear
          (cacheStep (some (N + 1))
            (cacheStep (some (N + 1)) (CacheState.fresh : CacheState κ ω) k
              (Except.ok v : Except ε ω)).2 k (Except.ok v : Except ε ω)).2)
      = ⟨0, 0, some (N + 1), 0⟩ := by
  simp [cacheStep, storeLookup, storeErase, cacheInfo, cacheClear,
    CacheState.fresh]

/-- C5: a failing call is not cached — the failure propagates, no entry is
stored and the miss is counted — and the next identical call re-invokes the
underlying function, so a failure followed by a success gives `misses = 2`,
two invocations and a cached success; in the pending-call model, both
concurrent callers of a failing shared computation observe the same failure,
nothing is stored, and the function ran once. -/
theorem lru_failure_not_cached {κ : Type} [DecidableEq κ] {ε ω : Type}
    (N : Nat) (k : κ) (e : ε) (v : ω) :
    cacheStep (some (N + 1)) (CacheState.fresh : CacheState κ ω) k
        (Except.error e : Except ε ω)
      = (Except.error e, ⟨[], 0, 1, 1⟩)
    ∧ cacheStep (some (N + 1)) (⟨[], 0, 1, 1⟩ : CacheState κ ω) k
        (Except.ok v : Except ε ω)
      = (Except.ok v, ⟨[(k, v)], 0, 2, 2⟩)
    ∧ (lruRun (Except.error e : Except ε ω) ([0, 1, 0, 1] : List (Fin 2))).phase 0
        = LruPhase.finished (Except.error e)
    ∧ (lruRun (Except.error e : Except ε ω) ([0, 1, 0, 1] : List (Fin 2))).phase 1
        = LruPhase.finished (Except.error e)
    ∧ (lruRun (Except.error e : Except ε ω) ([0, 1, 0, 1] : List (Fin 2))).cached
        = none
    ∧ (lruRun (Except.error e : Except ε ω) ([0, 1, 0, 1] : List (Fin 2))).invocations
        = 1 := by
  refine ⟨?_, ?_, ?_, ?_, ?_, ?_⟩ <;>
    simp [cacheStep, storeLookup, storeErase, CacheState.fresh, lruRun,
      lruStep, LruRace.fresh, Function.update]

/-- C2: `merge` of pre-sorted inputs with the default `key=None` does not
yield the sorted union and terminate normally: the setup raises `TypeError`
because `from_iters` unconditionally calls the `None` key on the first
element, and even under the one key mode that survives setup the inner
merging loop never re-checks its termination condition and ends in
`IndexError` instead of a normal `StopAsyncIteration`. -/
theorem merge_default_key_crashes :
    merge ([[0], [1]] : List (List Int)) KeyMode.idKey false
      = ([], some "TypeError: NoneType object is not callable")
    ∧ merge ([[1], [2, 3]] : List (List Int)) (KeyMode.asyncKey id) false
      = ([1, 2, 3], some "IndexError: list index out of range") := by
  exact ⟨rfl, by decide⟩

/-- C7: the key calling convention is not the same for first and subsequent
elements: `from_iters` computes `await key(head)` while `pull_head` computes
`key(head)` without awaiting, so a synchronous key raises `TypeError` at the
very first element and an asynchronous key stores a coroutine object as the
pulled element's key, which poisons the next comparison. -/
theorem merge_key_convention_mismatch :
    merge ([[0, 2], [1]] : List (List Int)) (KeyMode.syncKey id) false
      = ([], some "TypeError: object cannot be used in await expression")
    ∧ merge ([[0, 2], [1, 3]] : List (List Int)) (KeyMode.asyncKey id) false
      = ([0], some "TypeError: < not supported between instances") := by
  exact ⟨rfl, by decide⟩

/-- C3 counterexample: two concurrent first accesses to the same
not-yet-populated cached property, both starting before either getter
finishes (schedule: caller 0's lookup, caller 1's lookup, caller 0's
resumption, caller 1's resumption), invoke the underlying getter twice —
not once as the claim states. -/
theorem cached_property_race_cex :
    ¬ (cpRaceRun (fun n => n) [false, true, false, true]).invocations = 1 := by
  decide

/-- C3 amended: two concurrent first accesses that both begin before either
getter invocation completes each invoke the getter once (two invocations in
total, there is no guard); each access waits for or returns the value its own
invocation computed; the per-instance storage ends up absent or holding one
of the two computed values, and once populated it is never overwritten by any
later step. -/
theorem cached_property_race_amended {α : Type} (g : Nat → α) (i j : Bool)
    (rest : List Bool) (hij : i ≠ j) :
    (cpRaceRun g (i :: j :: rest)).invocations = 2
    ∧ ((cpRaceRun g (i :: j :: rest)).phase i = .waiting (g 0)
        ∨ (cpRaceRun g (i :: j :: rest)).phase i = .finished (g 0))
    ∧ ((cpRaceRun g (i :: j :: rest)).phase j = .waiting (g 1)
        ∨ (cpRaceRun g (i :: j :: rest)).phase j = .finished (g 1))
    ∧ ((cpRaceRun g (i :: j :: rest)).attr = none
        ∨ (cpRaceRun g (i :: j :: rest)).attr = some (g 0)
        ∨ (cpRaceRun g (i :: j :: rest)).attr = some (g 1))
    ∧ ∀ (v : α) (more : List Bool),
        (cpRaceRun g (i :: j :: rest)).attr = some v →
        (cpRaceRun g ((i :: j :: rest) ++ more)).attr = some v := by
  have hext : ∀ (l more : List Bool) (v : α),
      (cpRaceRun g l).attr = some v → (cpRaceRun g (l ++ more)).attr = some v := by
    intro l more v hv
    show ((l ++ more).foldl (cpRaceStep g) CPRace.fresh).attr = some v
    rw [List.foldl_append]
    exact cpRaceFold_attr g hv more
  cases i <;> cases j
  case false.false => exact absurd rfl hij
  case true.true => exact absurd rfl hij
  case false.true =>
    have hinv : CPRaceInv (g 0) (g 1) (cpRaceRun g (false :: true :: rest)) := by
      show CPRaceInv (g 0) (g 1)
        (rest.foldl (cpRaceStep g)
          (cpRaceStep g (cpRaceStep g CPRace.fresh false) true))
      exact cpRaceFold_inv g ⟨rfl, Or.inl rfl, Or.inl rfl, Or.inl rfl⟩ rest
    obtain ⟨h1, h2, h3, h4⟩ := hinv
    exact ⟨h1, h2, h3, h4, fun v more hv => hext _ more v hv⟩
  case true.false =>
    have hinv : CPRaceInv (g 1) (g 0) (cpRaceRun g (true :: false :: rest)) := by
      show CPRaceInv (g 1) (g 0)
        (rest.foldl (cpRaceStep g)
          (cpRaceStep g (cpRaceStep g CPRace.fresh true) false))
      exact cpRaceFold_inv g ⟨rfl, Or.inl rfl, Or.inl rfl, Or.inl rfl⟩ rest
    obtain ⟨h1, h2, h3, h4⟩ := hinv
    refine ⟨h1, h3, h2, ?_, fun v more hv => hext _ more v hv⟩
    rcases h4 with h4 | h4 | h4
    · exact Or.inl h4
    · exact Or.inr (Or.inr h4)
    · exact Or.inr (Or.inl h4)

/-- Witness for `cached_property_race_amended` at a concrete overlapping
schedule. -/
theorem cached_property_race_amended_witness :
    (cpRaceRun (fun n => n) [false, true, false, true]).invocations = 2 :=
  (cached_property_race_amended (fun n => n) false true [false, true]
    (by decide)).1

/-- C1: in the pending-call model, when `K ≥ 2` callers all issue the same
call concurrently (each performs its check-and-register step before the
single computation completes) while no cached entry exists, the underlying
function is invoked exactly once, and once every caller has been scheduled
after the completion, every caller observes exactly the computation's
`outcome` — its value on success or the very same failure. -/
theorem lru_concurrent_dedup {ε ω : Type} {K : Nat} (hK : 2 ≤ K)
    (outcome : Except ε ω) (lead : Fin K) (t s : List (Fin K))
    (hnd : (lead :: t).Nodup) (hall : ∀ i : Fin K, i ∈ lead :: t)
    (hs : ∀ i : Fin K, i ∈ s) :
    (lruRun outcome ((lead :: t) ++ lead :: s)).invocations = 1
    ∧ ∀ i : Fin K,
        (lruRun outcome ((lead :: t) ++ lead :: s)).phase i
          = LruPhase.finished outcome := by
  have hlead_not : lead ∉ t := (List.nodup_cons.mp hnd).1
  -- the leader's registration step from the fresh state
  have h0 : LruInvPre lead (lruStep outcome (LruRace.fresh K) lead) := by
    have hstep : lruStep outcome (LruRace.fresh K) lead
        = { LruRace.fresh K with
            pending := true, invocations := 1
            phase := Function.update (fun _ => LruPhase.start) lead .leader } := by
      simp [lruStep, LruRace.fresh]
    rw [hstep]
    refine ⟨rfl, rfl, rfl, rfl, by simp [Function.update_apply], ?_⟩
    intro i hi
    simp [LruRace.fresh, Function.update_apply, hi]
  -- the other callers' first steps make everyone but the leader a waiter
  obtain ⟨h1, _, h1w⟩ :=
    lruFold_pre outcome h0 t (fun j hj hjl => hlead_not (hjl ▸ hj))
  -- the leader's completion step resolves the shared future
  have h2 : LruInvPost outcome
      (lruStep outcome
        (t.foldl (lruStep outcome) (lruStep outcome (LruRace.fresh K) lead))
        lead) := by
    refine lruStep_complete outcome h1 ?_
    intro i hil
    have : i ∈ t := by
      rcases List.mem_cons.mp (hall i) with rfl | hi
      · exact absurd rfl hil
      · exact hi
    exact h1w i this
  -- the remaining schedule finishes every waiter with the shared result
  obtain ⟨h3, _, h3f⟩ := lruFold_post outcome h2 s
  have hrun : lruRun outcome ((lead :: t) ++ lead :: s)
      = s.foldl (lruStep outcome)
          (lruStep outcome
            (t.foldl (lruStep outcome) (lruStep outcome (LruRace.fresh K) lead))
            lead) := by
    rw [lruRun_append]
    rfl
  rw [hrun]
  exact ⟨h3.1, fun i => h3f i (hs i)⟩

/-- Witness for `lru_concurrent_dedup`: two concrete callers, a concrete
schedule and a concrete successful outcome. -/
theorem lru_concurrent_dedup_witness :
    (lruRun (Except.ok 37 : Except String Nat)
        ([0, 1, 0, 0, 1] : List (Fin 2))).invocations = 1
    ∧ (lruRun (Except.ok 37 : Except String Nat)
        ([0, 1, 0, 0, 1] : List (Fin 2))).phase 1
        = LruPhase.finished (Except.ok 37) := by
  have h := lru_concurrent_dedup (ε := String) (ω := Nat) (K := 2) (by decide)
    (Except.ok 37) 0 [1] [0, 1] (by decide) (by decide) (by decide)
  exact ⟨h.1, h.2 1⟩

end AsyncStdlib
